import Mathlib

/-!
# Verification of the `dll` RBM engine (`src/include/dll/rbm.inl`)

Shallow embedding of the Restricted Boltzmann Machine numerical engine.
Machine doubles are modelled as exact rationals (`ℚ`); the transcendental
functions `std::exp` and `std::log` (from `<cmath>`, outside this
repository) are passed as abstract parameters `exp, log : ℚ → ℚ`; the
process-wide pseudo-random generators are modelled as an abstract stream
`rng : ℕ → ℚ` together with an explicit read position that every draw
advances.  Fallible points (the `dll_unreachable` branches, the
`dll_assert` length precondition of `reconstruct`) are rendered as
`Option`.
-/

namespace DLLRBM

/-- The `unit_type` enumeration from `base_conf.hpp` as used by `rbm.inl`:
activation/sampling policy tags for a layer of units. -/
inductive unit_type : Type
  | BINARY
  | GAUSSIAN
  | RELU
  | RELU1
  | RELU6
  | EXP
  | SOFTMAX
deriving DecidableEq

open unit_type

/-- The data members of `rbm<Layer>` that the verified operations touch:
the parameters `w`, `b`, `c` (rbm.inl:61-63), the transient Gibbs-state
buffers `v1`, `h1_a` … `h2_s` (rbm.inl:66-75), and the temporary
trial-parameter pair `gr_w_tmp`/`gr_b_tmp` (rbm.inl:99-100).  The members
`gr_w` and `gr_b` are reference aliases of `w` and `b` in the source
(rbm.inl:78-79) and are therefore embedded below as projections returning
`w` and `b`. -/
structure RBMState (nv nh : ℕ) where
  w : Fin nv → Fin nh → ℚ
  b : Fin nh → ℚ
  c : Fin nv → ℚ
  v1 : Fin nv → ℚ
  h1_a : Fin nh → ℚ
  h1_s : Fin nh → ℚ
  v2_a : Fin nv → ℚ
  v2_s : Fin nv → ℚ
  h2_a : Fin nh → ℚ
  h2_s : Fin nh → ℚ
  gr_w_tmp : Fin nv → Fin nh → ℚ
  gr_b_tmp : Fin nh → ℚ

/-- `gr_w` is declared in the source as a reference bound to `w`
(rbm.inl:78): reading it reads `w`. -/
def gr_w {nv nh : ℕ} (r : RBMState nv nh) : Fin nv → Fin nh → ℚ := r.w

/-- `gr_b` is declared in the source as a reference bound to `b`
(rbm.inl:79): reading it reads `b`. -/
def gr_b {nv nh : ℕ} (r : RBMState nv nh) : Fin nh → ℚ := r.b

/-- `free_energy` (rbm.inl:323-333): accumulates
`energy += w(i,j) * b(j) * c(i)` over the two nested loops and returns
`-energy`.  The loops are mirrored as left folds over the index lists. -/
def free_energy {nv nh : ℕ} (r : RBMState nv nh) : ℚ :=
  -((List.finRange nv).foldl
      (fun acc i =>
        (List.finRange nh).foldl (fun acc2 j => acc2 + r.w i j * r.b j * r.c i) acc)
      0)

/-- A left fold that only adds equals the initial value plus the list sum. -/
lemma foldl_add_eq {α : Type} (f : α → ℚ) :
    ∀ (l : List α) (a0 : ℚ), l.foldl (fun a x => a + f x) a0 = a0 + (l.map f).sum := by
  intro l
  induction l with
  | nil => intro a0; simp
  | cons x xs ih =>
    intro a0
    simp only [List.foldl_cons, List.map_cons, List.sum_cons, ih]
    ring

/-- Summing a function over `List.finRange n` is summing it over `Fin n`. -/
lemma sum_map_finRange (n : ℕ) (f : Fin n → ℚ) :
    ((List.finRange n).map f).sum = ∑ j, f j := by
  induction n with
  | zero => simp
  | succ m ih =>
    rw [List.finRange_succ_eq_map, Fin.sum_univ_succ]
    simp only [List.map_cons, List.sum_cons, List.map_map]
    rw [show (f ∘ Fin.succ) = (fun j : Fin m => f j.succ) from rfl, ih (fun j => f j.succ)]

/-- C1: `free_energy()` returns `-Σ_i Σ_j w(i,j)·b(j)·c(i)`, a statistic of
the parameters `w`, `b`, `c` alone — it is independent of the visible
sample (and of every transient buffer), and, being a pure function of the
state, modifies nothing. -/
theorem free_energy_spec {nv nh : ℕ} (r : RBMState nv nh) :
    free_energy r = -(∑ i, ∑ j, r.w i j * r.b j * r.c i) ∧
    (∀ s : RBMState nv nh, s.w = r.w → s.b = r.b → s.c = r.c →
      free_energy s = free_energy r) := by
  constructor
  · unfold free_energy
    have h : ∀ (l : List (Fin nv)) (a0 : ℚ),
        l.foldl (fun acc i =>
          (List.finRange nh).foldl (fun acc2 j => acc2 + r.w i j * r.b j * r.c i) acc) a0
        = a0 + (l.map (fun i => ((List.finRange nh).map
            (fun j => r.w i j * r.b j * r.c i)).sum)).sum := by
      intro l
      induction l with
      | nil => intro a0; simp
      | cons x xs ih =>
        intro a0
        simp only [List.foldl_cons, List.map_cons, List.sum_cons]
        rw [ih, foldl_add_eq]
        ring
    rw [h, sum_map_finRange nv
      (fun i => ((List.finRange nh).map (fun j => r.w i j * r.b j * r.c i)).sum)]
    rw [Finset.sum_congr rfl (fun i _ => sum_map_finRange nh
      (fun j => r.w i j * r.b j * r.c i))]
    ring
  · intro s hw hb hc
    unfold free_energy
    rw [hw, hb, hc]

/-- An RBM state all of whose entries hold the same value, for concrete
evaluations. -/
def constState (nv nh : ℕ) (x : ℚ) : RBMState nv nh :=
  { w := fun _ _ => x, b := fun _ => x, c := fun _ => x,
    v1 := fun _ => x, h1_a := fun _ => x, h1_s := fun _ => x,
    v2_a := fun _ => x, v2_s := fun _ => x, h2_a := fun _ => x,
    h2_s := fun _ => x, gr_w_tmp := fun _ _ => x, gr_b_tmp := fun _ => x }

/-- C1 witness: evaluating `free_energy` on a concrete 2×2 machine. -/
theorem free_energy_spec_witness :
    free_energy (constState 2 2 2) = -(∑ _i : Fin 2, ∑ _j : Fin 2, (2 : ℚ) * 2 * 2) ∧
    free_energy (constState 2 2 2) = free_energy (constState 2 2 2) :=
  ⟨(free_energy_spec (constState 2 2 2)).1,
   (free_energy_spec (constState 2 2 2)).2 (constState 2 2 2) rfl rfl rfl⟩

/-- Modelled from the spec: `logistic_sigmoid` lives in `math.hpp`, which
is not under `src/`; the spec identifies it as the standard logistic
sigmoid (`logistic-sigmoid(0) = 0.5`), i.e. `1 / (1 + exp (-x))`, with the
exponential passed abstractly. -/
def logistic_sigmoid (exp : ℚ → ℚ) (x : ℚ) : ℚ := 1 / (1 + exp (-x))

/-- The per-hidden-unit total input `b(j) + Σ_i w(i,j)·v_a[i]`
(rbm.inl:190-196 and 224-231). -/
def total_input {nv nh : ℕ} (b : Fin nh → ℚ) (w : Fin nv → Fin nh → ℚ)
    (v_a : Fin nv → ℚ) (j : Fin nh) : ℚ :=
  b j + ∑ i, w i j * v_a i

/-- SOFTMAX normalizer `exp_sum = Σ_j exp(b(j)+Σ_i w(i,j)·v_a[i])`
(rbm.inl:188-198, first pass). -/
def softmax_exp_sum {nv nh : ℕ} (exp : ℚ → ℚ) (b : Fin nh → ℚ)
    (w : Fin nv → Fin nh → ℚ) (v_a : Fin nv → ℚ) : ℚ :=
  ∑ j, exp (total_input b w v_a j)

/-- The SOFTMAX activation (rbm.inl:200-212, second pass):
`h_a(j) = exp(x_j) / exp_sum`. -/
def softmax_h_a {nv nh : ℕ} (exp : ℚ → ℚ) (b : Fin nh → ℚ)
    (w : Fin nv → Fin nh → ℚ) (v_a : Fin nv → ℚ) : Fin nh → ℚ :=
  fun j => exp (total_input b w v_a j) / softmax_exp_sum exp b w v_a

/-- The arg-max search of the SOFTMAX branch (rbm.inl:214-219): `max_j`
starts at index 0 and is replaced only on strict `h_a(j) > h_a(max_j)`.
`none` only when there are no hidden units. -/
def softmax_max_j {nh : ℕ} (h_a : Fin nh → ℚ) : Option (Fin nh) :=
  match List.finRange nh with
  | [] => none
  | j0 :: rest => some (rest.foldl (fun mj j => if h_a j > h_a mj then j else mj) j0)

/-- One iteration of the non-SOFTMAX hidden-unit loop (rbm.inl:224-275):
given the total input `x` and the current read position in the random
stream, produce `(h_a(j), h_s(j), new position)`.  Each uniform or
Gaussian draw consumes one stream element; a `N(0,σ)` draw is modelled as
`σ · rng pos`.  The `dll_unreachable` branch is `none`. -/
def hidden_unit_step (exp : ℚ → ℚ) (hu : unit_type) (rng : ℕ → ℚ)
    (x : ℚ) (pos : ℕ) : Option (ℚ × ℚ × ℕ) :=
  match hu with
  | BINARY =>
      some (logistic_sigmoid exp x,
            if logistic_sigmoid exp x > rng pos then 1 else 0, pos + 1)
  | EXP =>
      some (exp x, if exp x > rng pos then 1 else 0, pos + 1)
  | RELU =>
      some (max 0 x, max 0 (x + logistic_sigmoid exp x * rng pos), pos + 1)
  | RELU6 =>
      if min (max 0 x) 6 = 0 ∨ min (max 0 x) 6 = 6 then
        some (min (max 0 x) 6, min (max 0 x) 6, pos)
      else
        some (min (max 0 x) 6, min (max 0 (x + rng pos)) 6, pos + 1)
  | RELU1 =>
      if min (max 0 x) 1 = 0 ∨ min (max 0 x) 1 = 1 then
        some (min (max 0 x) 1, min (max 0 x) 1, pos)
      else
        some (min (max 0 x) 1, min (max 0 (x + rng pos)) 1, pos + 1)
  | _ => none

/-- The non-SOFTMAX hidden loop `for j = 0 .. num_hidden-1` of
`activate_hidden` (rbm.inl:224-275), threading the random-stream
position; the accumulators start from the zero-initialized `h_a`, `h_s`
(rbm.inl:184-185). -/
def hidden_loop {nh : ℕ} (exp : ℚ → ℚ) (hu : unit_type) (rng : ℕ → ℚ)
    (x : Fin nh → ℚ) :
    List (Fin nh) → (Fin nh → ℚ) → (Fin nh → ℚ) → ℕ →
    Option ((Fin nh → ℚ) × (Fin nh → ℚ) × ℕ)
  | [], h_a, h_s, pos => some (h_a, h_s, pos)
  | j :: rest, h_a, h_s, pos =>
      match hidden_unit_step exp hu rng (x j) pos with
      | none => none
      | some (a, s, pos') =>
          hidden_loop exp hu rng x rest
            (Function.update h_a j a) (Function.update h_s j s) pos'

/-- The static `activate_hidden(h_a, h_s, v_a, v_s, b, w)`
(rbm.inl:178-277).  The unnamed fourth parameter (`v_s` at call sites) is
never read.  SOFTMAX (rbm.inl:187-222) draws nothing: two passes compute
`h_a(j) = exp(x_j)/exp_sum`, then `h_s` is one-hot at `max_j`.  Other
unit types run the per-unit loop. -/
def activate_hidden {nv nh : ℕ} (exp : ℚ → ℚ) (hu : unit_type)
    (b : Fin nh → ℚ) (w : Fin nv → Fin nh → ℚ)
    (v_a : Fin nv → ℚ) (v_s : Fin nv → ℚ) (rng : ℕ → ℚ) (pos : ℕ) :
    Option ((Fin nh → ℚ) × (Fin nh → ℚ) × ℕ) :=
  let _ := v_s
  if hu = SOFTMAX then
    let h_a : Fin nh → ℚ := softmax_h_a exp b w v_a
    let h_s : Fin nh → ℚ :=
      match softmax_max_j (softmax_h_a exp b w v_a) with
      | none => fun _ => 0
      | some m => fun j => if j = m then 1 else 0
    some (h_a, h_s, pos)
  else
    hidden_loop exp hu rng (total_input b w v_a) (List.finRange nh)
      (fun _ => 0) (fun _ => 0) pos

/-- Characterization of `hidden_loop` for a unit type whose step is total:
each index in the (duplicate-free) list gets its activation `act (x j)`,
its sample `samp (x j) p_j` where `p_j` is the stream position reached
after the draws of the units processed before `j`, and the final position
advances by the total number of draws. -/
lemma hidden_loop_spec {nh : ℕ} (exp : ℚ → ℚ) (hu : unit_type) (rng : ℕ → ℚ)
    (x : Fin nh → ℚ) (act : ℚ → ℚ) (samp : ℚ → ℕ → ℚ) (cost : ℚ → ℕ)
    (hstep : ∀ y pos, hidden_unit_step exp hu rng y pos =
      some (act y, samp y pos, pos + cost y)) :
    ∀ (l : List (Fin nh)), l.Nodup → ∀ (h_a h_s : Fin nh → ℚ) (pos : ℕ),
      hidden_loop exp hu rng x l h_a h_s pos =
        some (fun j => if j ∈ l then act (x j) else h_a j,
              fun j => if j ∈ l then
                  samp (x j)
                    (pos + ((l.takeWhile (fun k => decide (k ≠ j))).map
                      (fun k => cost (x k))).sum)
                else h_s j,
              pos + (l.map (fun k => cost (x k))).sum) := by
  intro l
  induction l with
  | nil =>
    intro _ h_a h_s pos
    simp [hidden_loop]
  | cons j0 rest ih =>
    intro hnd h_a h_s pos
    obtain ⟨hj0, hndr⟩ := List.nodup_cons.mp hnd
    rw [hidden_loop, hstep (x j0) pos]
    show hidden_loop exp hu rng x rest (Function.update h_a j0 (act (x j0)))
      (Function.update h_s j0 (samp (x j0) pos)) (pos + cost (x j0)) = _
    rw [ih hndr (Function.update h_a j0 (act (x j0)))
      (Function.update h_s j0 (samp (x j0) pos)) (pos + cost (x j0))]
    refine congrArg some ?_
    refine Prod.ext ?_ (Prod.ext ?_ ?_)
    · funext j
      by_cases hjr : j ∈ rest
      · simp [hjr, List.mem_cons.mpr (Or.inr hjr)]
      · by_cases hjj : j = j0
        · subst hjj
          simp [hjr, Function.update_same]
        · simp [hjr, hjj, Function.update_noteq hjj]
    · funext j
      by_cases hjr : j ∈ rest
      · have hjj : j ≠ j0 := fun h => hj0 (h ▸ hjr)
        have h1 : (j0 :: rest).takeWhile (fun k => decide (k ≠ j)) =
            j0 :: rest.takeWhile (fun k => decide (k ≠ j)) := by
          rw [List.takeWhile_cons]
          simp [hjj.symm]
        simp only [hjr, if_true, List.mem_cons.mpr (Or.inr hjr), h1,
          List.map_cons, List.sum_cons]
        rw [Nat.add_assoc]
      · by_cases hjj : j = j0
        · subst hjj
          have h1 : (j :: rest).takeWhile (fun k => decide (k ≠ j)) = [] := by
            rw [List.takeWhile_cons]
            simp
          simp [hjr, h1, Function.update_same]
        · simp [hjr, hjj, Function.update_noteq hjj]
    · simp only [List.map_cons, List.sum_cons]
      rw [Nat.add_assoc]

/-- Step shape for BINARY hidden units (rbm.inl:233-235). -/
lemma hidden_unit_step_binary (exp : ℚ → ℚ) (rng : ℕ → ℚ) (y : ℚ) (pos : ℕ) :
    hidden_unit_step exp BINARY rng y pos =
      some (logistic_sigmoid exp y,
            if logistic_sigmoid exp y > rng pos then (1 : ℚ) else 0, pos + 1) := rfl

/-- Step shape for EXP hidden units (rbm.inl:236-238). -/
lemma hidden_unit_step_exp_unit (exp : ℚ → ℚ) (rng : ℕ → ℚ) (y : ℚ) (pos : ℕ) :
    hidden_unit_step exp EXP rng y pos =
      some (exp y, if exp y > rng pos then (1 : ℚ) else 0, pos + 1) := rfl

/-- Step shape for RELU hidden units (rbm.inl:239-244). -/
lemma hidden_unit_step_relu (exp : ℚ → ℚ) (rng : ℕ → ℚ) (y : ℚ) (pos : ℕ) :
    hidden_unit_step exp RELU rng y pos =
      some (max 0 y, max 0 (y + logistic_sigmoid exp y * rng pos), pos + 1) := rfl

/-- Step shape for RELU1 hidden units (rbm.inl:256-266): at a clamp
boundary the sample is the activation and no draw is consumed. -/
lemma hidden_unit_step_relu1 (exp : ℚ → ℚ) (rng : ℕ → ℚ) (y : ℚ) (pos : ℕ) :
    hidden_unit_step exp RELU1 rng y pos =
      some (min (max 0 y) 1,
            if min (max 0 y) 1 = 0 ∨ min (max 0 y) 1 = 1 then min (max 0 y) 1
              else min (max 0 (y + rng pos)) 1,
            pos + (if min (max 0 y) 1 = 0 ∨ min (max 0 y) 1 = 1 then 0 else 1)) := by
  show (if min (max 0 y) 1 = 0 ∨ min (max 0 y) 1 = 1 then
          some (min (max 0 y) 1, min (max 0 y) 1, pos)
        else some (min (max 0 y) 1, min (max 0 (y + rng pos)) 1, pos + 1)) = _
  by_cases h : min (max 0 y) 1 = 0 ∨ min (max 0 y) 1 = 1
  · rw [if_pos h, if_pos h, if_pos h, Nat.add_zero]
  · rw [if_neg h, if_neg h, if_neg h]

/-- Step shape for RELU6 hidden units (rbm.inl:245-255): at a clamp
boundary the sample is the activation and no draw is consumed. -/
lemma hidden_unit_step_relu6 (exp : ℚ → ℚ) (rng : ℕ → ℚ) (y : ℚ) (pos : ℕ) :
    hidden_unit_step exp RELU6 rng y pos =
      some (min (max 0 y) 6,
            if min (max 0 y) 6 = 0 ∨ min (max 0 y) 6 = 6 then min (max 0 y) 6
              else min (max 0 (y + rng pos)) 6,
            pos + (if min (max 0 y) 6 = 0 ∨ min (max 0 y) 6 = 6 then 0 else 1)) := by
  show (if min (max 0 y) 6 = 0 ∨ min (max 0 y) 6 = 6 then
          some (min (max 0 y) 6, min (max 0 y) 6, pos)
        else some (min (max 0 y) 6, min (max 0 (y + rng pos)) 6, pos + 1)) = _
  by_cases h : min (max 0 y) 6 = 0 ∨ min (max 0 y) 6 = 6
  · rw [if_pos h, if_pos h, if_pos h, Nat.add_zero]
  · rw [if_neg h, if_neg h, if_neg h]

/-- The fold of the SOFTMAX arg-max search (rbm.inl:214-219): over a
strictly increasing candidate list whose elements all exceed the seed,
the result attains the maximum of `h_a` over seed and list, and on ties
it is the smallest such index (updates happen only on strict `>`). -/
lemma argmax_foldl {nh : ℕ} (h_a : Fin nh → ℚ) :
    ∀ (l : List (Fin nh)) (j0 : Fin nh), (∀ j ∈ l, j0 < j) →
      l.Pairwise (· < ·) →
    ∀ m, l.foldl (fun mj j => if h_a j > h_a mj then j else mj) j0 = m →
      (m = j0 ∨ (m ∈ l ∧ h_a j0 < h_a m)) ∧
      (∀ j, j = j0 ∨ j ∈ l → h_a j ≤ h_a m) ∧
      (∀ j, j = j0 ∨ j ∈ l → h_a j = h_a m → m ≤ j) := by
  intro l
  induction l with
  | nil =>
    intro j0 _ _ m hm
    simp only [List.foldl_nil] at hm
    subst hm
    refine ⟨Or.inl rfl, ?_, ?_⟩
    · rintro j (rfl | hj)
      · exact le_refl _
      · simp at hj
    · rintro j (rfl | hj) _
      · exact le_refl _
      · simp at hj
  | cons j1 rest ih =>
    intro j0 hlt hpw m hm
    simp only [List.foldl_cons] at hm
    have hpw' := List.pairwise_cons.mp hpw
    have hj01 : j0 < j1 := hlt j1 (List.mem_cons_self j1 rest)
    by_cases hgt : h_a j1 > h_a j0
    · rw [if_pos hgt] at hm
      obtain ⟨H1, H2, H3⟩ := ih j1 hpw'.1 hpw'.2 m hm
      have hj0m : h_a j0 < h_a m := by
        rcases H1 with rfl | ⟨_, hlt2⟩
        · exact hgt
        · exact lt_trans hgt hlt2
      refine ⟨?_, ?_, ?_⟩
      · rcases H1 with rfl | ⟨hmem, _⟩
        · exact Or.inr ⟨List.mem_cons_self m rest, hj0m⟩
        · exact Or.inr ⟨List.mem_cons_of_mem j1 hmem, hj0m⟩
      · rintro j (rfl | hj)
        · exact le_of_lt hj0m
        · rcases List.mem_cons.mp hj with rfl | hj'
          · exact H2 j (Or.inl rfl)
          · exact H2 j (Or.inr hj')
      · rintro j (rfl | hj) heq
        · exact absurd heq (ne_of_lt hj0m)
        · rcases List.mem_cons.mp hj with rfl | hj'
          · exact H3 j (Or.inl rfl) heq
          · exact H3 j (Or.inr hj') heq
    · rw [if_neg hgt] at hm
      push_neg at hgt
      have hlt' : ∀ j ∈ rest, j0 < j := fun j hj => lt_trans hj01 (hpw'.1 j hj)
      obtain ⟨H1, H2, H3⟩ := ih j0 hlt' hpw'.2 m hm
      refine ⟨?_, ?_, ?_⟩
      · rcases H1 with rfl | ⟨hmem, hlt2⟩
        · exact Or.inl rfl
        · exact Or.inr ⟨List.mem_cons_of_mem j1 hmem, hlt2⟩
      · rintro j (rfl | hj)
        · exact H2 _ (Or.inl rfl)
        · rcases List.mem_cons.mp hj with rfl | hj'
          · exact le_trans hgt (H2 _ (Or.inl rfl))
          · exact H2 j (Or.inr hj')
      · rintro j (rfl | hj) heq
        · exact H3 j (Or.inl rfl) heq
        · rcases List.mem_cons.mp hj with rfl | hj'
          · have hq : h_a j0 = h_a m :=
              le_antisymm (H2 _ (Or.inl rfl)) (by rw [← heq]; exact hgt)
            exact le_trans (H3 _ (Or.inl rfl) hq) (le_of_lt hj01)
          · exact H3 j (Or.inr hj') heq

/-- C2: for a SOFTMAX hidden layer, `activate_hidden` returns activations
`h_a(j) = exp(b(j)+Σ_i w(i,j)·v_a[i]) / Σ_k exp(b(k)+Σ_i w(i,k)·v_a[i])`
that sum to 1 in exact arithmetic (the modelled `exp` being positive),
draws nothing from the random stream (the position is returned
unchanged), and a sample `h_s` that is one-hot at the arg-max of `h_a`,
ties resolved to the lowest index. -/
theorem activate_hidden_softmax_spec (nv nh : ℕ) (hnh : 0 < nh)
    (exp : ℚ → ℚ) (hexp : ∀ y, 0 < exp y) (b : Fin nh → ℚ)
    (w : Fin nv → Fin nh → ℚ) (v_a v_s : Fin nv → ℚ) (rng : ℕ → ℚ)
    (pos : ℕ) :
    ∃ (h_a h_s : Fin nh → ℚ) (m : Fin nh),
      activate_hidden exp SOFTMAX b w v_a v_s rng pos = some (h_a, h_s, pos) ∧
      (∀ j, h_a j = exp (b j + ∑ i, w i j * v_a i) /
        ∑ k, exp (b k + ∑ i, w i k * v_a i)) ∧
      (∑ j, h_a j) = 1 ∧
      h_s m = 1 ∧ (∀ j, j ≠ m → h_s j = 0) ∧
      (∀ j, h_a j ≤ h_a m) ∧ (∀ j, h_a j = h_a m → m ≤ j) := by
  haveI : Nonempty (Fin nh) := Fin.pos_iff_nonempty.mp hnh
  have hS : 0 < softmax_exp_sum exp b w v_a :=
    Finset.sum_pos (fun k _ => hexp _) Finset.univ_nonempty
  cases heq : List.finRange nh with
  | nil =>
    exfalso
    have hlen := List.length_finRange nh
    rw [heq] at hlen
    simp only [List.length_nil] at hlen
    omega
  | cons j0 rest =>
    have hmax : softmax_max_j (softmax_h_a exp b w v_a) =
        some (rest.foldl
          (fun mj j => if softmax_h_a exp b w v_a j > softmax_h_a exp b w v_a mj
            then j else mj) j0) := by
      unfold softmax_max_j
      rw [heq]
    have hpw : (j0 :: rest).Pairwise (· < ·) := heq ▸ List.pairwise_lt_finRange nh
    have hpw' := List.pairwise_cons.mp hpw
    have hmem : ∀ j : Fin nh, j = j0 ∨ j ∈ rest := fun j =>
      List.mem_cons.mp (heq ▸ List.mem_finRange j)
    obtain ⟨_, H2, H3⟩ := argmax_foldl (softmax_h_a exp b w v_a) rest j0
      hpw'.1 hpw'.2
      (rest.foldl
        (fun mj j => if softmax_h_a exp b w v_a j > softmax_h_a exp b w v_a mj
          then j else mj) j0) rfl
    refine ⟨softmax_h_a exp b w v_a,
      fun j => if j = rest.foldl
        (fun mj j => if softmax_h_a exp b w v_a j > softmax_h_a exp b w v_a mj
          then j else mj) j0 then 1 else 0,
      rest.foldl
        (fun mj j => if softmax_h_a exp b w v_a j > softmax_h_a exp b w v_a mj
          then j else mj) j0,
      ?_, ?_, ?_, ?_, ?_, ?_, ?_⟩
    · have hAH : activate_hidden exp SOFTMAX b w v_a v_s rng pos =
          some (softmax_h_a exp b w v_a,
            (match softmax_max_j (softmax_h_a exp b w v_a) with
             | none => fun _ => 0
             | some m => fun j => if j = m then 1 else 0 : Fin nh → ℚ), pos) := rfl
      rw [hmax] at hAH
      exact hAH
    · intro j
      rfl
    · unfold softmax_h_a
      rw [← Finset.sum_div]
      exact div_self (ne_of_gt hS)
    · exact if_pos rfl
    · intro j hj
      exact if_neg hj
    · intro j
      exact H2 j (hmem j)
    · intro j
      exact H3 j (hmem j)

/-- C2 witness: a 1-visible, 2-hidden SOFTMAX machine with everything
zero and `exp` the constant-one positive function. -/
theorem activate_hidden_softmax_spec_witness :
    ∃ (h_a h_s : Fin 2 → ℚ) (m : Fin 2),
      activate_hidden (fun _ => 1) unit_type.SOFTMAX (fun _ => 0)
        (fun (_ : Fin 1) _ => 0) (fun _ => 0) (fun _ => 0) (fun _ => 0) 0 =
        some (h_a, h_s, 0) ∧
      (∀ j, h_a j = (fun _ => (1 : ℚ)) ((fun _ : Fin 2 => (0 : ℚ)) j +
        ∑ i : Fin 1, (fun (_ : Fin 1) (_ : Fin 2) => (0 : ℚ)) i j *
          (fun _ : Fin 1 => (0 : ℚ)) i) /
        ∑ k, (fun _ => (1 : ℚ)) ((fun _ : Fin 2 => (0 : ℚ)) k +
          ∑ i : Fin 1, (fun (_ : Fin 1) (_ : Fin 2) => (0 : ℚ)) i k *
            (fun _ : Fin 1 => (0 : ℚ)) i)) ∧
      (∑ j, h_a j) = 1 ∧
      h_s m = 1 ∧ (∀ j, j ≠ m → h_s j = 0) ∧
      (∀ j, h_a j ≤ h_a m) ∧ (∀ j, h_a j = h_a m → m ≤ j) :=
  activate_hidden_softmax_spec 1 2 (by norm_num) (fun _ => 1)
    (fun _ => one_pos) (fun _ => 0) (fun _ _ => 0) (fun _ => 0) (fun _ => 0)
    (fun _ => 0) 0

/-- Mapping every element to 1 and summing counts the length. -/
lemma sum_map_one {α : Type} : ∀ l : List α, (l.map fun _ => (1 : ℕ)).sum = l.length := by
  intro l
  induction l with
  | nil => rfl
  | cons x xs ih => simp [ih, Nat.add_comm]

/-- The §8 scenario input vector `[1,0,1,0]`. -/
def inputVec : Fin 4 → ℚ := ![1, 0, 1, 0]

/-- C9: for BINARY hidden units, `activate_hidden` produces
`h_a(j) = logistic-sigmoid(b(j)+Σ_i w(i,j)·v_a[i])` — a function of the
weights, bias and `v_a` only, the `v_s` argument being ignored — and in
the scenario `num_visible=4`, `num_hidden=2`, zero weights and biases,
input `[1,0,1,0]`, every hidden activation is `1/2`. -/
theorem activate_hidden_binary_spec :
    (∀ (nv nh : ℕ) (exp : ℚ → ℚ) (b : Fin nh → ℚ) (w : Fin nv → Fin nh → ℚ)
        (v_a v_s : Fin nv → ℚ) (rng : ℕ → ℚ) (pos : ℕ),
      ∃ h_s : Fin nh → ℚ,
        activate_hidden exp unit_type.BINARY b w v_a v_s rng pos =
          some (fun j => logistic_sigmoid exp (b j + ∑ i, w i j * v_a i),
                h_s, pos + nh)) ∧
    (∀ (nv nh : ℕ) (exp : ℚ → ℚ) (b : Fin nh → ℚ) (w : Fin nv → Fin nh → ℚ)
        (v_a : Fin nv → ℚ) (v_s v_s' : Fin nv → ℚ) (rng : ℕ → ℚ) (pos : ℕ),
      activate_hidden exp unit_type.BINARY b w v_a v_s rng pos =
        activate_hidden exp unit_type.BINARY b w v_a v_s' rng pos) ∧
    (∀ exp : ℚ → ℚ, exp 0 = 1 → ∀ (rng : ℕ → ℚ) (v_s : Fin 4 → ℚ) (pos : ℕ),
      ∃ (h_s : Fin 2 → ℚ) (pos' : ℕ),
        activate_hidden exp unit_type.BINARY (fun _ => 0) (fun _ _ => 0)
          inputVec v_s rng pos = some (fun _ => 1/2, h_s, pos')) := by
  have key : ∀ (nv nh : ℕ) (exp : ℚ → ℚ) (b : Fin nh → ℚ)
      (w : Fin nv → Fin nh → ℚ) (v_a v_s : Fin nv → ℚ) (rng : ℕ → ℚ) (pos : ℕ),
      ∃ h_s : Fin nh → ℚ,
        activate_hidden exp unit_type.BINARY b w v_a v_s rng pos =
          some (fun j => logistic_sigmoid exp (b j + ∑ i, w i j * v_a i),
                h_s, pos + nh) := by
    intro nv nh exp b w v_a v_s rng pos
    have hloop := hidden_loop_spec exp unit_type.BINARY rng (total_input b w v_a)
      (logistic_sigmoid exp)
      (fun y p => if logistic_sigmoid exp y > rng p then (1 : ℚ) else 0)
      (fun _ => 1) (fun y p => hidden_unit_step_binary exp rng y p)
      (List.finRange nh) (List.nodup_finRange nh) (fun _ => 0) (fun _ => 0) pos
    have hAH : activate_hidden exp unit_type.BINARY b w v_a v_s rng pos =
        hidden_loop exp unit_type.BINARY rng (total_input b w v_a)
          (List.finRange nh) (fun _ => 0) (fun _ => 0) pos := rfl
    rw [hAH, hloop]
    refine ⟨_, congrArg some (Prod.ext ?_ (Prod.ext rfl ?_))⟩
    · funext j
      simp only [List.mem_finRange, if_true]
      rfl
    · show pos + ((List.finRange nh).map fun _ => 1).sum = pos + nh
      rw [sum_map_one, List.length_finRange]
  refine ⟨key, fun _ _ _ _ _ _ _ _ _ _ => rfl, ?_⟩
  intro exp h1 rng v_s pos
  obtain ⟨h_s, hs⟩ := key 4 2 exp (fun _ => 0) (fun _ _ => 0) inputVec v_s rng pos
  refine ⟨h_s, pos + 2, ?_⟩
  rw [hs]
  refine congrArg some (Prod.ext ?_ rfl)
  funext j
  show logistic_sigmoid exp ((0 : ℚ) + ∑ i : Fin 4, 0 * inputVec i) = 1 / 2
  unfold logistic_sigmoid
  simp only [zero_mul, Finset.sum_const_zero, add_zero, zero_add, neg_zero, h1]
  norm_num

/-- C9 witness: the scenario instantiated with the concrete exponential
`fun _ => 1` (which satisfies `exp 0 = 1`). -/
theorem activate_hidden_binary_spec_witness :
    ∃ (h_s : Fin 2 → ℚ) (pos' : ℕ),
      activate_hidden (fun _ => 1) unit_type.BINARY (fun _ => 0) (fun _ _ => 0)
        inputVec (fun _ => 0) (fun _ => 0) 0 = some (fun _ => 1/2, h_s, pos') :=
  activate_hidden_binary_spec.2.2 (fun _ => 1) rfl (fun _ => 0) (fun _ => 0) 0

/-- Summing 0-or-1 indicator costs counts the elements violating `P`. -/
lemma sum_map_ite_cost {α : Type} (P : α → Prop) [DecidablePred P] :
    ∀ l : List α,
      (l.map fun k => if P k then 0 else 1).sum =
        l.countP fun k => decide ¬P k := by
  intro l
  induction l with
  | nil => rfl
  | cons y ys ih =>
    simp only [List.map_cons, List.sum_cons, List.countP_cons, ih]
    by_cases hy : P y
    · simp [hy]
    · simp [hy, Nat.add_comm]

/-- Shared analysis of the RELU1/RELU6 hidden loop for a clamp bound
`upper`: activations are `clamp(x,0,upper)`, samples stay in
`[0,upper]`, boundary activations are returned as samples with no draw
consumed, non-boundary samples are `clamp(x+draw,0,upper)`, and exactly
the non-boundary units advance the stream. -/
lemma relu_clamped_loop_aux {nv nh : ℕ} (exp : ℚ → ℚ) (hu : unit_type)
    (upper : ℚ) (h0 : (0 : ℚ) < upper)
    (hstep : ∀ (rng : ℕ → ℚ) (y : ℚ) (p : ℕ),
      hidden_unit_step exp hu rng y p =
        some (min (max 0 y) upper,
              if min (max 0 y) upper = 0 ∨ min (max 0 y) upper = upper
                then min (max 0 y) upper else min (max 0 (y + rng p)) upper,
              p + (if min (max 0 y) upper = 0 ∨ min (max 0 y) upper = upper
                then 0 else 1)))
    (hne : hu ≠ SOFTMAX)
    (b : Fin nh → ℚ) (w : Fin nv → Fin nh → ℚ) (v_a v_s : Fin nv → ℚ)
    (rng : ℕ → ℚ) (pos : ℕ) :
    ∃ (h_a h_s : Fin nh → ℚ) (pos' : ℕ),
      activate_hidden exp hu b w v_a v_s rng pos = some (h_a, h_s, pos') ∧
      (∀ j, h_a j = min (max 0 (b j + ∑ i, w i j * v_a i)) upper) ∧
      (∀ j, 0 ≤ h_s j ∧ h_s j ≤ upper) ∧
      (∀ j, h_a j = 0 ∨ h_a j = upper → h_s j = h_a j) ∧
      (∀ j, ¬(h_a j = 0 ∨ h_a j = upper) →
        ∃ p, h_s j = min (max 0 ((b j + ∑ i, w i j * v_a i) + rng p)) upper) ∧
      pos' = pos + (List.finRange nh).countP
        (fun j => decide ¬(min (max 0 (b j + ∑ i, w i j * v_a i)) upper = 0 ∨
          min (max 0 (b j + ∑ i, w i j * v_a i)) upper = upper)) := by
  have hloop := hidden_loop_spec exp hu rng (total_input b w v_a)
    (fun y => min (max 0 y) upper)
    (fun y p => if min (max 0 y) upper = 0 ∨ min (max 0 y) upper = upper
      then min (max 0 y) upper else min (max 0 (y + rng p)) upper)
    (fun y => if min (max 0 y) upper = 0 ∨ min (max 0 y) upper = upper
      then 0 else 1)
    (hstep rng) (List.finRange nh) (List.nodup_finRange nh)
    (fun _ => 0) (fun _ => 0) pos
  have hAH : activate_hidden exp hu b w v_a v_s rng pos =
      hidden_loop exp hu rng (total_input b w v_a) (List.finRange nh)
        (fun _ => 0) (fun _ => 0) pos := by
    unfold activate_hidden
    exact if_neg hne
  rw [hAH, hloop]
  have hbnd : ∀ z : ℚ, 0 ≤ min (max 0 z) upper ∧ min (max 0 z) upper ≤ upper :=
    fun z => ⟨le_min (le_max_left 0 z) (le_of_lt h0), min_le_right _ _⟩
  refine ⟨_, _, _, rfl, ?_, ?_, ?_, ?_, ?_⟩
  · intro j
    simp only [List.mem_finRange, if_true]
    rfl
  · intro j
    simp only [List.mem_finRange, if_true]
    by_cases hb : min (max 0 (total_input b w v_a j)) upper = 0 ∨
        min (max 0 (total_input b w v_a j)) upper = upper
    · rw [if_pos hb]
      exact hbnd _
    · rw [if_neg hb]
      exact hbnd _
  · intro j hj
    simp only [List.mem_finRange, if_true] at hj ⊢
    exact if_pos hj
  · intro j hj
    simp only [List.mem_finRange, if_true] at hj ⊢
    refine ⟨pos + ((List.takeWhile (fun k => decide (k ≠ j))
        (List.finRange nh)).map
        (fun k => if min (max 0 (total_input b w v_a k)) upper = 0 ∨
          min (max 0 (total_input b w v_a k)) upper = upper
          then 0 else 1)).sum, ?_⟩
    exact if_neg hj
  · rw [sum_map_ite_cost
      (fun k : Fin nh => min (max 0 (total_input b w v_a k)) upper = 0 ∨
        min (max 0 (total_input b w v_a k)) upper = upper)
      (List.finRange nh)]
    rfl

/-- C4: for RELU1 (upper clamp 1) and RELU6 (upper clamp 6) hidden units,
`activate_hidden` clamps the total input into `[0,upper]` for the
activation, keeps every sample inside `[0,upper]`, returns the
activation itself as the sample at a clamp boundary (0 or upper) with no
random draw consumed there, and otherwise samples
`clamp(x + Gaussian draw, 0, upper)`; the stream advances exactly once
per non-boundary unit. -/
theorem activate_hidden_relu_clamp_spec (hu : unit_type) (upper : ℚ)
    (hcase : (hu = unit_type.RELU1 ∧ upper = 1) ∨
             (hu = unit_type.RELU6 ∧ upper = 6))
    (nv nh : ℕ) (exp : ℚ → ℚ) (b : Fin nh → ℚ) (w : Fin nv → Fin nh → ℚ)
    (v_a v_s : Fin nv → ℚ) (rng : ℕ → ℚ) (pos : ℕ) :
    ∃ (h_a h_s : Fin nh → ℚ) (pos' : ℕ),
      activate_hidden exp hu b w v_a v_s rng pos = some (h_a, h_s, pos') ∧
      (∀ j, h_a j = min (max 0 (b j + ∑ i, w i j * v_a i)) upper) ∧
      (∀ j, 0 ≤ h_s j ∧ h_s j ≤ upper) ∧
      (∀ j, h_a j = 0 ∨ h_a j = upper → h_s j = h_a j) ∧
      (∀ j, ¬(h_a j = 0 ∨ h_a j = upper) →
        ∃ p, h_s j = min (max 0 ((b j + ∑ i, w i j * v_a i) + rng p)) upper) ∧
      pos' = pos + (List.finRange nh).countP
        (fun j => decide ¬(min (max 0 (b j + ∑ i, w i j * v_a i)) upper = 0 ∨
          min (max 0 (b j + ∑ i, w i j * v_a i)) upper = upper)) := by
  rcases hcase with ⟨rfl, rfl⟩ | ⟨rfl, rfl⟩
  · exact relu_clamped_loop_aux exp unit_type.RELU1 1 (by norm_num)
      (fun r y p => hidden_unit_step_relu1 exp r y p) (by simp)
      b w v_a v_s rng pos
  · exact relu_clamped_loop_aux exp unit_type.RELU6 6 (by norm_num)
      (fun r y p => hidden_unit_step_relu6 exp r y p) (by simp)
      b w v_a v_s rng pos

/-- C4 witness: a 1×1 RELU1 machine with bias `1/2` (a non-boundary
total input) and a zero random stream. -/
theorem activate_hidden_relu_clamp_spec_witness :
    ∃ (h_a h_s : Fin 1 → ℚ) (pos' : ℕ),
      activate_hidden (fun _ => 1) unit_type.RELU1 (fun _ => 1/2)
        (fun (_ : Fin 1) (_ : Fin 1) => 0) (fun _ => 0) (fun _ => 0)
        (fun _ => 0) 0 = some (h_a, h_s, pos') ∧
      (∀ j : Fin 1, h_a j = min (max 0 ((1 : ℚ)/2 + ∑ _i : Fin 1, 0 * 0)) 1) ∧
      (∀ j, 0 ≤ h_s j ∧ h_s j ≤ 1) ∧
      (∀ j, h_a j = 0 ∨ h_a j = 1 → h_s j = h_a j) ∧
      (∀ j, ¬(h_a j = 0 ∨ h_a j = 1) →
        ∃ p : ℕ, h_s j = min (max 0 (((1 : ℚ)/2 + ∑ _i : Fin 1, 0 * 0) +
          (fun _ : ℕ => (0 : ℚ)) p)) 1) ∧
      pos' = 0 + (List.finRange 1).countP
        (fun _j => decide ¬(min (max 0 ((1 : ℚ)/2 + ∑ _i : Fin 1, 0 * 0)) 1 = 0 ∨
          min (max 0 ((1 : ℚ)/2 + ∑ _i : Fin 1, 0 * 0)) 1 = 1)) := by
  obtain ⟨h_a, h_s, pos', h1, h2, h3, h4, h5, h6⟩ :=
    activate_hidden_relu_clamp_spec unit_type.RELU1 1 (Or.inl ⟨rfl, rfl⟩) 1 1
      (fun _ => 1) (fun _ => 1/2) (fun _ _ => 0) (fun _ => 0) (fun _ => 0)
      (fun _ => 0) 0
  exact ⟨h_a, h_s, pos', h1, h2, h3, h4, h5, h6⟩

/-- The `static_assert`s at rbm.inl:52-55: visible SOFTMAX/EXP and hidden
GAUSSIAN are rejected at compile time; the compile-time check is rendered
as fallible construction of the unit-type configuration. -/
def rbm_construct (vu hu : unit_type) : Option (unit_type × unit_type) :=
  if vu ≠ SOFTMAX ∧ vu ≠ EXP ∧ hu ≠ GAUSSIAN then some (vu, hu) else none

/-- For every hidden unit type other than GAUSSIAN, `activate_hidden`
never reaches the `dll_unreachable` branch. -/
lemma activate_hidden_total {nv nh : ℕ} (exp : ℚ → ℚ) (hu : unit_type)
    (hne : hu ≠ GAUSSIAN) (b : Fin nh → ℚ) (w : Fin nv → Fin nh → ℚ)
    (v_a v_s : Fin nv → ℚ) (rng : ℕ → ℚ) (pos : ℕ) :
    (activate_hidden exp hu b w v_a v_s rng pos).isSome := by
  cases hu with
  | GAUSSIAN => exact absurd rfl hne
  | SOFTMAX => rfl
  | BINARY =>
    rw [show activate_hidden exp BINARY b w v_a v_s rng pos =
        hidden_loop exp BINARY rng (total_input b w v_a)
          (List.finRange nh) (fun _ => 0) (fun _ => 0) pos from rfl,
      hidden_loop_spec exp BINARY rng (total_input b w v_a)
        (logistic_sigmoid exp)
        (fun y p => if logistic_sigmoid exp y > rng p then (1 : ℚ) else 0)
        (fun _ => 1) (fun y p => hidden_unit_step_binary exp rng y p)
        (List.finRange nh) (List.nodup_finRange nh) (fun _ => 0) (fun _ => 0) pos]
    rfl
  | EXP =>
    rw [show activate_hidden exp unit_type.EXP b w v_a v_s rng pos =
        hidden_loop exp unit_type.EXP rng (total_input b w v_a)
          (List.finRange nh) (fun _ => 0) (fun _ => 0) pos from rfl,
      hidden_loop_spec exp unit_type.EXP rng (total_input b w v_a) exp
        (fun y p => if exp y > rng p then (1 : ℚ) else 0)
        (fun _ => 1) (fun y p => hidden_unit_step_exp_unit exp rng y p)
        (List.finRange nh) (List.nodup_finRange nh) (fun _ => 0) (fun _ => 0) pos]
    rfl
  | RELU =>
    rw [show activate_hidden exp RELU b w v_a v_s rng pos =
        hidden_loop exp RELU rng (total_input b w v_a)
          (List.finRange nh) (fun _ => 0) (fun _ => 0) pos from rfl,
      hidden_loop_spec exp RELU rng (total_input b w v_a)
        (fun y => max 0 y)
        (fun y p => max 0 (y + logistic_sigmoid exp y * rng p))
        (fun _ => 1) (fun y p => hidden_unit_step_relu exp rng y p)
        (List.finRange nh) (List.nodup_finRange nh) (fun _ => 0) (fun _ => 0) pos]
    rfl
  | RELU1 =>
    rw [show activate_hidden exp RELU1 b w v_a v_s rng pos =
        hidden_loop exp RELU1 rng (total_input b w v_a)
          (List.finRange nh) (fun _ => 0) (fun _ => 0) pos from rfl,
      hidden_loop_spec exp RELU1 rng (total_input b w v_a)
        (fun y => min (max 0 y) 1)
        (fun y p => if min (max 0 y) 1 = 0 ∨ min (max 0 y) 1 = 1
          then min (max 0 y) 1 else min (max 0 (y + rng p)) 1)
        (fun y => if min (max 0 y) 1 = 0 ∨ min (max 0 y) 1 = 1 then 0 else 1)
        (fun y p => hidden_unit_step_relu1 exp rng y p)
        (List.finRange nh) (List.nodup_finRange nh) (fun _ => 0) (fun _ => 0) pos]
    rfl
  | RELU6 =>
    rw [show activate_hidden exp RELU6 b w v_a v_s rng pos =
        hidden_loop exp RELU6 rng (total_input b w v_a)
          (List.finRange nh) (fun _ => 0) (fun _ => 0) pos from rfl,
      hidden_loop_spec exp RELU6 rng (total_input b w v_a)
        (fun y => min (max 0 y) 6)
        (fun y p => if min (max 0 y) 6 = 0 ∨ min (max 0 y) 6 = 6
          then min (max 0 y) 6 else min (max 0 (y + rng p)) 6)
        (fun y => if min (max 0 y) 6 = 0 ∨ min (max 0 y) 6 = 6 then 0 else 1)
        (fun y p => hidden_unit_step_relu6 exp rng y p)
        (List.finRange nh) (List.nodup_finRange nh) (fun _ => 0) (fun _ => 0) pos]
    rfl

/-- C8: configuration with visible SOFTMAX/EXP or hidden GAUSSIAN always
fails fast at construction; if construction succeeds, the hidden unit
type is valid and `activate_hidden` never reaches its unreachable
(GAUSSIAN) branch. -/
theorem rbm_construct_guard_spec (vu hu : unit_type) :
    ((rbm_construct vu hu).isSome ↔
      (vu ≠ unit_type.SOFTMAX ∧ vu ≠ unit_type.EXP ∧
       hu ≠ unit_type.GAUSSIAN)) ∧
    ((vu = unit_type.SOFTMAX ∨ vu = unit_type.EXP ∨
      hu = unit_type.GAUSSIAN) → rbm_construct vu hu = none) ∧
    ((rbm_construct vu hu).isSome →
      ∀ (nv nh : ℕ) (exp : ℚ → ℚ) (b : Fin nh → ℚ) (w : Fin nv → Fin nh → ℚ)
        (v_a v_s : Fin nv → ℚ) (rng : ℕ → ℚ) (pos : ℕ),
        (activate_hidden exp hu b w v_a v_s rng pos).isSome) := by
  have hiff : (rbm_construct vu hu).isSome ↔
      (vu ≠ SOFTMAX ∧ vu ≠ EXP ∧ hu ≠ GAUSSIAN) := by
    unfold rbm_construct
    by_cases h : vu ≠ SOFTMAX ∧ vu ≠ EXP ∧ hu ≠ GAUSSIAN
    · rw [if_pos h]
      simpa using h
    · rw [if_neg h]
      simpa using h
  refine ⟨hiff, ?_, ?_⟩
  · intro h
    unfold rbm_construct
    rw [if_neg]
    rintro ⟨h1, h2, h3⟩
    rcases h with rfl | rfl | rfl
    exacts [h1 rfl, h2 rfl, h3 rfl]
  · intro h nv nh exp b w v_a v_s rng pos
    exact activate_hidden_total exp hu (hiff.mp h).2.2 b w v_a v_s rng pos

/-- C8 witness: visible SOFTMAX is rejected; a BINARY/BINARY machine
constructs and its hidden activation succeeds on concrete data. -/
theorem rbm_construct_guard_spec_witness :
    rbm_construct unit_type.SOFTMAX unit_type.BINARY = none ∧
    (activate_hidden (fun _ => 1) unit_type.BINARY (fun _ => 0)
      (fun (_ : Fin 1) (_ : Fin 1) => 0) (fun _ => 0) (fun _ => 0)
      (fun _ => 0) 0).isSome :=
  ⟨(rbm_construct_guard_spec unit_type.SOFTMAX unit_type.BINARY).2.1
      (Or.inl rfl),
   (rbm_construct_guard_spec unit_type.BINARY unit_type.BINARY).2.2
      (by decide) 1 1 (fun _ => 1) (fun _ => 0) (fun _ _ => 0) (fun _ => 0)
      (fun _ => 0) (fun _ => 0) 0⟩

/-- The member overload `activate_hidden(h_a, h_s, v_a, v_s)`
(rbm.inl:168-171): forwards to the static version with the live
parameters `b`, `w`. -/
def rbm_activate_hidden {nv nh : ℕ} (exp : ℚ → ℚ) (hu : unit_type)
    (r : RBMState nv nh) (v_a v_s : Fin nv → ℚ) (rng : ℕ → ℚ) (pos : ℕ) :
    Option ((Fin nh → ℚ) × (Fin nh → ℚ) × ℕ) :=
  activate_hidden exp hu r.b r.w v_a v_s rng pos

/-- `gr_activate_hidden<Temp>` (rbm.inl:173-176): forwards to the static
version with `Temp ? gr_b_tmp : gr_b` and `Temp ? gr_w_tmp : gr_w`. -/
def gr_activate_hidden {nv nh : ℕ} (exp : ℚ → ℚ) (hu : unit_type)
    (Temp : Bool) (r : RBMState nv nh) (v_a v_s : Fin nv → ℚ)
    (rng : ℕ → ℚ) (pos : ℕ) :
    Option ((Fin nh → ℚ) × (Fin nh → ℚ) × ℕ) :=
  activate_hidden exp hu (if Temp then r.gr_b_tmp else gr_b r)
    (if Temp then r.gr_w_tmp else gr_w r) v_a v_s rng pos

/-- C3: `gr_w`/`gr_b` always alias the live parameters `w`/`b`; hence
`gr_activate_hidden` with `Temp = false` computes exactly what the member
`activate_hidden` computes on the live parameters, while with
`Temp = true` it reads `gr_b_tmp`/`gr_w_tmp` instead — its result depends
only on the trial buffers (so the live `w`, `b` are neither read nor, the
function being pure, modified). -/
theorem gr_alias_spec {nv nh : ℕ} (exp : ℚ → ℚ) (hu : unit_type)
    (r : RBMState nv nh) (v_a v_s : Fin nv → ℚ) (rng : ℕ → ℚ) (pos : ℕ) :
    gr_w r = r.w ∧ gr_b r = r.b ∧
    gr_activate_hidden exp hu false r v_a v_s rng pos =
      rbm_activate_hidden exp hu r v_a v_s rng pos ∧
    gr_activate_hidden exp hu true r v_a v_s rng pos =
      activate_hidden exp hu r.gr_b_tmp r.gr_w_tmp v_a v_s rng pos ∧
    (∀ s : RBMState nv nh, s.gr_w_tmp = r.gr_w_tmp →
      s.gr_b_tmp = r.gr_b_tmp →
      gr_activate_hidden exp hu true s v_a v_s rng pos =
        gr_activate_hidden exp hu true r v_a v_s rng pos) := by
  refine ⟨rfl, rfl, rfl, rfl, ?_⟩
  intro s hw hb
  show activate_hidden exp hu s.gr_b_tmp s.gr_w_tmp v_a v_s rng pos =
    activate_hidden exp hu r.gr_b_tmp r.gr_w_tmp v_a v_s rng pos
  rw [hw, hb]

/-- C3 witness: the aliasing equations evaluated on a concrete state, and
trial-mode invariance applied to two states sharing trial buffers. -/
theorem gr_alias_spec_witness :
    gr_w (constState 1 1 2) = (constState 1 1 2).w ∧
    gr_activate_hidden (fun _ => 1) unit_type.BINARY true (constState 1 1 2)
        (fun _ => 0) (fun _ => 0) (fun _ => 0) 0 =
      gr_activate_hidden (fun _ => 1) unit_type.BINARY true (constState 1 1 2)
        (fun _ => 0) (fun _ => 0) (fun _ => 0) 0 :=
  ⟨(gr_alias_spec (fun _ => 1) unit_type.BINARY (constState 1 1 2)
      (fun _ => 0) (fun _ => 0) (fun _ => 0) 0).1,
   (gr_alias_spec (fun _ => 1) unit_type.BINARY (constState 1 1 2)
      (fun _ => 0) (fun _ => 0) (fun _ => 0) 0).2.2.2.2
      (constState 1 1 2) rfl rfl⟩

/-- Modelled from the spec: `is_relu` is declared in `base_conf.hpp`,
which is not under `src/`; the spec (§4.1 and the C10 source comment)
treats RELU, RELU1 and RELU6 as the ReLU variants. -/
def is_relu : unit_type → Bool
  | RELU => true
  | RELU1 => true
  | RELU6 => true
  | _ => false

/-- The learning-rate initialization in the constructor (rbm.inl:124-128):
`1e-5` for GAUSSIAN visible with ReLU hidden, `1e-3` when only one of the
two holds, `1e-1` otherwise. -/
def initial_learning_rate (vu hu : unit_type) : ℚ :=
  if vu = GAUSSIAN ∧ is_relu hu then 1/100000
  else if vu = GAUSSIAN ∨ is_relu hu then 1/1000
  else 1/10

/-- C10: the constructor sets the inherited `learning_rate` to `1e-5`
when the visible unit is GAUSSIAN and the hidden unit is a ReLU variant,
`1e-3` when exactly one of those conditions holds, and `1e-1` when
neither holds. -/
theorem learning_rate_spec (vu hu : unit_type) :
    ((vu = unit_type.GAUSSIAN ∧ is_relu hu = true) →
      initial_learning_rate vu hu = 1/100000) ∧
    (((vu = unit_type.GAUSSIAN ∧ ¬is_relu hu = true) ∨
      (¬vu = unit_type.GAUSSIAN ∧ is_relu hu = true)) →
      initial_learning_rate vu hu = 1/1000) ∧
    ((¬vu = unit_type.GAUSSIAN ∧ ¬is_relu hu = true) →
      initial_learning_rate vu hu = 1/10) := by
  cases vu <;> cases hu <;>
    simp [initial_learning_rate, is_relu]

/-- C10 witness: one configuration from each of the three regimes. -/
theorem learning_rate_spec_witness :
    initial_learning_rate unit_type.GAUSSIAN unit_type.RELU = 1/100000 ∧
    initial_learning_rate unit_type.GAUSSIAN unit_type.BINARY = 1/1000 ∧
    initial_learning_rate unit_type.BINARY unit_type.BINARY = 1/10 :=
  ⟨(learning_rate_spec unit_type.GAUSSIAN unit_type.RELU).1 ⟨rfl, rfl⟩,
   (learning_rate_spec unit_type.GAUSSIAN unit_type.BINARY).2.1
     (Or.inl ⟨rfl, by decide⟩),
   (learning_rate_spec unit_type.BINARY unit_type.BINARY).2.2
     ⟨by decide, by decide⟩⟩

/-- The count of training examples whose `i`-th component equals 1
(rbm.inl:153-158, the inner loop of `init_weights`); out-of-range
components read as 0 like an unchecked `operator[]` never matching 1. -/
def count_ones (training : List (List ℚ)) (i : ℕ) : ℕ :=
  training.countP fun items => decide (items.getD i 0 = 1)

/-- The per-unit body of `init_weights` (rbm.inl:160-162):
`pi = count/size`, then `pi += 0.0001`, then `log(pi / (1 - pi))`. -/
def visible_bias_logit (log : ℚ → ℚ) (training : List (List ℚ)) (i : ℕ) : ℚ :=
  log ((((count_ones training i : ℚ) / (training.length : ℚ)) + 1/10000) /
       (1 - (((count_ones training i : ℚ) / (training.length : ℚ)) + 1/10000)))

/-- `init_weights(training_data)` (rbm.inl:150-166): writes the logit
warm start into each `c(i)`.  Only `c` is written. -/
def init_weights {nv nh : ℕ} (log : ℚ → ℚ) (training : List (List ℚ))
    (r : RBMState nv nh) : RBMState nv nh :=
  { r with c := fun i => visible_bias_logit log training i.val }

/-- C5: on a non-empty training set, `init_weights` sets
`c(i) = log(p_i/(1-p_i))` where `p_i` is the fraction of examples whose
`i`-th component equals 1 plus the smoothing constant `0.0001` added
before the logit; `w` and `b` are untouched; and when unit `i` is 1 in
exactly half the examples, `c(i) = log(0.5001/0.4999) = log(5001/4999)`. -/
theorem init_weights_spec {nv nh : ℕ} (log : ℚ → ℚ)
    (training : List (List ℚ)) (hne : training ≠ [])
    (r : RBMState nv nh) :
    (∀ i : Fin nv, (init_weights log training r).c i =
      log ((((count_ones training i.val : ℚ) / (training.length : ℚ)) + 1/10000) /
           (1 - (((count_ones training i.val : ℚ) / (training.length : ℚ)) + 1/10000)))) ∧
    (init_weights log training r).w = r.w ∧
    (init_weights log training r).b = r.b ∧
    (∀ i : Fin nv, 2 * count_ones training i.val = training.length →
      (init_weights log training r).c i = log (5001/4999)) := by
  refine ⟨fun i => rfl, rfl, rfl, ?_⟩
  intro i hi
  have hpos : 0 < training.length := List.length_pos.mpr hne
  have hn : (training.length : ℚ) ≠ 0 :=
    Nat.cast_ne_zero.mpr (Nat.pos_iff_ne_zero.mp hpos)
  have hhalf : (count_ones training i.val : ℚ) / (training.length : ℚ) = 1/2 := by
    have h2 : (2 : ℚ) * (count_ones training i.val : ℚ) = (training.length : ℚ) := by
      exact_mod_cast congrArg (fun n : ℕ => (n : ℚ)) hi
    rw [div_eq_iff hn]
    linarith
  show log ((((count_ones training i.val : ℚ) / (training.length : ℚ)) + 1/10000) /
       (1 - (((count_ones training i.val : ℚ) / (training.length : ℚ)) + 1/10000))) =
    log (5001/4999)
  rw [hhalf]
  exact congrArg log (by norm_num)

/-- C5 witness: training set `[[1],[0]]` (unit 0 is 1 in exactly half the
examples) with the identity standing in for `log`. -/
theorem init_weights_spec_witness :
    (init_weights (fun x => x) [[1], [0]] (constState 1 1 3)).w =
      (constState 1 1 3).w ∧
    (init_weights (fun x => x) [[1], [0]] (constState 1 1 3)).c 0 =
      5001/4999 :=
  ⟨(init_weights_spec (fun x => x) [[1], [0]] (by simp) (constState 1 1 3)).2.1,
   (init_weights_spec (fun x => x) [[1], [0]] (by simp) (constState 1 1 3)).2.2.2
     0 (by decide)⟩

/-- Modelled from the spec: `binary_write_all` (io.hpp, not under `src/`)
dumps the container's values sequentially with no metadata; per the
spec's persistence format, `store` (rbm.inl:131-135) emits `w` row-major
(`num_visible*num_hidden` reals), then `b` (`num_hidden`), then `c`
(`num_visible`). -/
def store {nv nh : ℕ} (r : RBMState nv nh) : List ℚ :=
  ((List.finRange nv).map fun i => (List.finRange nh).map fun j => r.w i j).flatten
    ++ (((List.finRange nh).map fun j => r.b j)
    ++ ((List.finRange nv).map fun i => r.c i))

/-- Modelled from the spec: `binary_load_all` (io.hpp, not under `src/`)
reads the same sequence back; `load` (rbm.inl:137-141) fills `w`, `b`,
`c` from the stream in the same fixed order, the reader supplying the
dimensions. -/
def load {nv nh : ℕ} (r : RBMState nv nh) (data : List ℚ) : RBMState nv nh :=
  { r with
    w := fun i j => data.getD (i.val * nh + j.val) 0,
    b := fun j => data.getD (nv * nh + j.val) 0,
    c := fun i => data.getD (nv * nh + nh + i.val) 0 }

/-- Mapping every element to the same `c` and summing gives `length * c`. -/
lemma sum_map_const {α : Type} (c : ℕ) :
    ∀ l : List α, (l.map fun _ => c).sum = l.length * c := by
  intro l
  induction l with
  | nil => simp
  | cons x xs ih => simp [ih, Nat.succ_mul, Nat.add_comm]

/-- `getD` on a mapped `finRange` evaluates the function. -/
lemma getD_map_finRange {α : Type} (d : α) (n : ℕ) (f : Fin n → α) (k : ℕ)
    (hk : k < n) : ((List.finRange n).map f).getD k d = f ⟨k, hk⟩ := by
  rw [List.getD_eq_getElem?_getD, List.getElem?_map,
    List.getElem?_eq_getElem (by simpa using hk)]
  simp [List.getElem_finRange, Fin.cast]

/-- Indexing the flattening of uniform-length lists: element `i*m + j`
is element `j` of list `i`. -/
lemma flatten_getD (m : ℕ) :
    ∀ L : List (List ℚ), (∀ l ∈ L, l.length = m) →
    ∀ i j : ℕ, i < L.length → j < m →
      L.flatten.getD (i * m + j) 0 = (L.getD i []).getD j 0 := by
  intro L
  induction L with
  | nil =>
    intro _ i j hi _
    simp at hi
  | cons l0 rest ih =>
    intro hlen i j hi hj
    have hl0 : l0.length = m := hlen l0 (List.mem_cons_self l0 rest)
    cases i with
    | zero =>
      simp only [Nat.zero_mul, Nat.zero_add, List.flatten_cons]
      rw [List.getD_append l0 rest.flatten 0 j (by rw [hl0]; exact hj)]
      rfl
    | succ i' =>
      simp only [List.flatten_cons, Nat.succ_mul]
      rw [show i' * m + m + j = l0.length + (i' * m + j) by rw [hl0]; omega]
      rw [List.getD_append_right l0 rest.flatten 0 _ (Nat.le_add_right _ _),
        Nat.add_sub_cancel_left]
      exact ih (fun l hl => hlen l (List.mem_cons_of_mem l0 hl)) i' j
        (by simpa using hi) hj

/-- The row-major `w` block of `store` has `nv * nh` entries. -/
lemma store_w_block_length {nv nh : ℕ} (r : RBMState nv nh) :
    ((List.finRange nv).map fun i =>
      (List.finRange nh).map fun j => r.w i j).flatten.length = nv * nh := by
  rw [List.length_flatten, List.map_map]
  rw [show (List.length ∘ fun i : Fin nv => (List.finRange nh).map fun j => r.w i j)
      = fun _ : Fin nv => nh by
    funext i
    simp [Function.comp]]
  rw [sum_map_const nh, List.length_finRange]

/-- C6: `store` writes exactly `nv*nh + nh + nv` values — `w` row-major
at offsets `i*nh + j`, then `b` at offset `nv*nh`, then `c` at offset
`nv*nh + nh`, with nothing else — and `load` of a stored state into any
machine of the same shape reproduces `w`, `b`, `c` exactly while leaving
the target's other buffers alone. -/
theorem store_load_roundtrip {nv nh : ℕ} (r s : RBMState nv nh) :
    (store r).length = nv * nh + nh + nv ∧
    (∀ (i : Fin nv) (j : Fin nh),
      (store r).getD (i.val * nh + j.val) 0 = r.w i j) ∧
    (∀ j : Fin nh, (store r).getD (nv * nh + j.val) 0 = r.b j) ∧
    (∀ i : Fin nv, (store r).getD (nv * nh + nh + i.val) 0 = r.c i) ∧
    (load s (store r)).w = r.w ∧
    (load s (store r)).b = r.b ∧
    (load s (store r)).c = r.c ∧
    (load s (store r)).v1 = s.v1 ∧
    (load s (store r)).gr_w_tmp = s.gr_w_tmp := by
  have hwlen := store_w_block_length r
  have hblen : ((List.finRange nh).map fun j => r.b j).length = nh := by
    rw [List.length_map, List.length_finRange]
  have hw : ∀ (i : Fin nv) (j : Fin nh),
      (store r).getD (i.val * nh + j.val) 0 = r.w i j := by
    intro i j
    have hidx : i.val * nh + j.val <
        ((List.finRange nv).map fun i =>
          (List.finRange nh).map fun j => r.w i j).flatten.length := by
      rw [hwlen]
      have h1 : i.val * nh + j.val < (i.val + 1) * nh := by
        rw [Nat.succ_mul]
        omega
      exact lt_of_lt_of_le h1 (Nat.mul_le_mul_right nh i.isLt)
    unfold store
    rw [List.getD_append _ _ 0 _ hidx]
    rw [flatten_getD nh _
      (by
        intro l hl
        obtain ⟨i', _, rfl⟩ := List.mem_map.mp hl
        rw [List.length_map, List.length_finRange])
      i.val j.val (by rw [List.length_map, List.length_finRange]; exact i.isLt)
      j.isLt]
    rw [getD_map_finRange [] nv _ i.val i.isLt]
    rw [getD_map_finRange 0 nh _ j.val j.isLt]
  have hb : ∀ j : Fin nh, (store r).getD (nv * nh + j.val) 0 = r.b j := by
    intro j
    unfold store
    rw [List.getD_append_right _ _ 0 _ (by rw [hwlen]; exact Nat.le_add_right _ _),
      hwlen, Nat.add_sub_cancel_left]
    rw [List.getD_append _ _ 0 _ (by rw [hblen]; exact j.isLt)]
    exact getD_map_finRange 0 nh _ j.val j.isLt
  have hc : ∀ i : Fin nv, (store r).getD (nv * nh + nh + i.val) 0 = r.c i := by
    intro i
    unfold store
    rw [List.getD_append_right _ _ 0 _
        (by rw [hwlen]; omega),
      hwlen, show nv * nh + nh + i.val - nv * nh = nh + i.val by omega]
    rw [List.getD_append_right _ _ 0 _ (by rw [hblen]; exact Nat.le_add_right _ _),
      hblen, Nat.add_sub_cancel_left]
    exact getD_map_finRange 0 nv _ i.val i.isLt
  refine ⟨?_, hw, hb, hc, ?_, ?_, ?_, rfl, rfl⟩
  · unfold store
    rw [List.length_append, List.length_append, hwlen, hblen,
      List.length_map, List.length_finRange]
    omega
  · funext i j
    exact hw i j
  · funext j
    exact hb j
  · funext i
    exact hc i

/-- One iteration of the visible-unit loop of `activate_visible`
(rbm.inl:288-320); the `dll_unreachable` branch (every unit type other
than BINARY, GAUSSIAN, RELU) is `none`. -/
def visible_unit_step (exp : ℚ → ℚ) (vu : unit_type) (rng : ℕ → ℚ)
    (x : ℚ) (pos : ℕ) : Option (ℚ × ℚ × ℕ) :=
  match vu with
  | BINARY =>
      some (logistic_sigmoid exp x,
            if logistic_sigmoid exp x > rng pos then 1 else 0, pos + 1)
  | GAUSSIAN =>
      some (x, x + rng pos, pos + 1)
  | RELU =>
      some (max 0 x, max 0 (x + logistic_sigmoid exp x * rng pos), pos + 1)
  | _ => none

/-- The per-visible-unit total input `c(i) + Σ_j w(i,j)·h_s(j)`
(rbm.inl:288-295). -/
def visible_total_input {nv nh : ℕ} (c : Fin nv → ℚ)
    (w : Fin nv → Fin nh → ℚ) (h_s : Fin nh → ℚ) (i : Fin nv) : ℚ :=
  c i + ∑ j, w i j * h_s j

/-- The visible loop `for i = 0 .. num_visible-1` of `activate_visible`
(rbm.inl:288-320). -/
def visible_loop {nv : ℕ} (exp : ℚ → ℚ) (vu : unit_type) (rng : ℕ → ℚ)
    (x : Fin nv → ℚ) :
    List (Fin nv) → (Fin nv → ℚ) → (Fin nv → ℚ) → ℕ →
    Option ((Fin nv → ℚ) × (Fin nv → ℚ) × ℕ)
  | [], v_a, v_s, pos => some (v_a, v_s, pos)
  | i :: rest, v_a, v_s, pos =>
      match visible_unit_step exp vu rng (x i) pos with
      | none => none
      | some (a, s, pos') =>
          visible_loop exp vu rng x rest
            (Function.update v_a i a) (Function.update v_s i s) pos'

/-- `activate_visible(h_a, h_s, v_a, v_s)` (rbm.inl:279-321): reads the
live `c` and `w`; the first parameter (`h_a` at call sites) is never
read; the accumulators start from the zero-initialized `v_a`, `v_s`
(rbm.inl:285-286). -/
def activate_visible {nv nh : ℕ} (exp : ℚ → ℚ) (vu : unit_type)
    (c : Fin nv → ℚ) (w : Fin nv → Fin nh → ℚ) (h_a h_s : Fin nh → ℚ)
    (rng : ℕ → ℚ) (pos : ℕ) :
    Option ((Fin nv → ℚ) × (Fin nv → ℚ) × ℕ) :=
  let _ := h_a
  visible_loop exp vu rng (visible_total_input c w h_s) (List.finRange nv)
    (fun _ => 0) (fun _ => 0) pos

/-- A visible loop whose per-unit step is total never fails. -/
lemma visible_loop_total {nv : ℕ} (exp : ℚ → ℚ) (vu : unit_type)
    (rng : ℕ → ℚ) (x : Fin nv → ℚ)
    (hstep : ∀ y p, (visible_unit_step exp vu rng y p).isSome) :
    ∀ (l : List (Fin nv)) (v_a v_s : Fin nv → ℚ) (pos : ℕ),
      (visible_loop exp vu rng x l v_a v_s pos).isSome := by
  intro l
  induction l with
  | nil =>
    intro v_a v_s pos
    rfl
  | cons i0 rest ih =>
    intro v_a v_s pos
    have h := hstep (x i0) pos
    cases heq : visible_unit_step exp vu rng (x i0) pos with
    | none =>
      rw [heq] at h
      simp at h
    | some t =>
      obtain ⟨a, s, p'⟩ := t
      rw [visible_loop, heq]
      exact ih _ _ _

/-- For the three supported visible unit types, `activate_visible` never
reaches the `dll_unreachable` branch. -/
lemma activate_visible_total {nv nh : ℕ} (exp : ℚ → ℚ) (vu : unit_type)
    (hv : vu = BINARY ∨ vu = GAUSSIAN ∨ vu = RELU) (c : Fin nv → ℚ)
    (w : Fin nv → Fin nh → ℚ) (h_a h_s : Fin nh → ℚ) (rng : ℕ → ℚ)
    (pos : ℕ) : (activate_visible exp vu c w h_a h_s rng pos).isSome := by
  rcases hv with rfl | rfl | rfl
  · exact visible_loop_total exp BINARY rng (visible_total_input c w h_s)
      (fun y p => rfl) (List.finRange nv) (fun _ => 0) (fun _ => 0) pos
  · exact visible_loop_total exp GAUSSIAN rng (visible_total_input c w h_s)
      (fun y p => rfl) (List.finRange nv) (fun _ => 0) (fun _ => 0) pos
  · exact visible_loop_total exp RELU rng (visible_total_input c w h_s)
      (fun y p => rfl) (List.finRange nv) (fun _ => 0) (fun _ => 0) pos

/-- `reconstruct(items)` (rbm.inl:335-348): asserts
`items.size() == num_visible`, copies the sample into `v1`, then runs
`activate_hidden(h1_a, h1_s, v1, v1)`,
`activate_visible(h1_a, h1_s, v2_a, v2_s)`,
`activate_hidden(h2_a, h2_s, v2_a, v2_s)`, storing the results in the
transient buffers; the parameters are only read. -/
def reconstruct {nv nh : ℕ} (exp : ℚ → ℚ) (vu hu : unit_type)
    (r : RBMState nv nh) (items : List ℚ) (rng : ℕ → ℚ) (pos : ℕ) :
    Option (RBMState nv nh × ℕ) :=
  if items.length = nv then
    match activate_hidden exp hu r.b r.w (fun i => items.getD i.val 0)
        (fun i => items.getD i.val 0) rng pos with
    | none => none
    | some (h1_a, h1_s, p1) =>
      match activate_visible exp vu r.c r.w h1_a h1_s rng p1 with
      | none => none
      | some (v2_a, v2_s, p2) =>
        match activate_hidden exp hu r.b r.w v2_a v2_s rng p2 with
        | none => none
        | some (h2_a, h2_s, p3) =>
          some ({ r with
                  v1 := fun i => items.getD i.val 0,
                  h1_a := h1_a, h1_s := h1_s, v2_a := v2_a, v2_s := v2_s,
                  h2_a := h2_a, h2_s := h2_s }, p3)
  else none

/-- C7: a sample whose length differs from `num_visible` fails the
assertion; on success, `reconstruct` leaves `w`, `b`, `c` (and the trial
buffers) unchanged, sets `v1` to the sample, and the stored buffers are
exactly one CD step in order — hidden from `v1` into `(h1_a, h1_s)`,
visible from `h1_s` into `(v2_a, v2_s)`, hidden again from `v2_a` into
`(h2_a, h2_s)`; and for supported unit types with a matching length,
`reconstruct` succeeds. -/
theorem reconstruct_spec {nv nh : ℕ} (exp : ℚ → ℚ) (vu hu : unit_type)
    (r : RBMState nv nh) (items : List ℚ) (rng : ℕ → ℚ) (pos : ℕ) :
    (items.length ≠ nv → reconstruct exp vu hu r items rng pos = none) ∧
    (∀ (st' : RBMState nv nh) (pos' : ℕ),
      reconstruct exp vu hu r items rng pos = some (st', pos') →
      st'.w = r.w ∧ st'.b = r.b ∧ st'.c = r.c ∧
      st'.gr_w_tmp = r.gr_w_tmp ∧ st'.gr_b_tmp = r.gr_b_tmp ∧
      st'.v1 = (fun i => items.getD i.val 0) ∧
      ∃ p1 p2,
        activate_hidden exp hu r.b r.w st'.v1 st'.v1 rng pos =
          some (st'.h1_a, st'.h1_s, p1) ∧
        activate_visible exp vu r.c r.w st'.h1_a st'.h1_s rng p1 =
          some (st'.v2_a, st'.v2_s, p2) ∧
        activate_hidden exp hu r.b r.w st'.v2_a st'.v2_s rng p2 =
          some (st'.h2_a, st'.h2_s, pos')) ∧
    (items.length = nv → hu ≠ unit_type.GAUSSIAN →
      (vu = unit_type.BINARY ∨ vu = unit_type.GAUSSIAN ∨
       vu = unit_type.RELU) →
      (reconstruct exp vu hu r items rng pos).isSome) := by
  refine ⟨?_, ?_, ?_⟩
  · intro hne
    unfold reconstruct
    rw [if_neg hne]
  · intro st' pos' h
    unfold reconstruct at h
    split at h
    · split at h
      · simp at h
      · rename_i h1a h1s p1 heq1
        split at h
        · simp at h
        · rename_i v2a v2s p2 heq2
          split at h
          · simp at h
          · rename_i h2a h2s p3 heq3
            have hinj := Option.some.inj h
            have h4 := congrArg Prod.fst hinj
            have h5 := congrArg Prod.snd hinj
            simp only at h4 h5
            subst h4
            subst h5
            exact ⟨rfl, rfl, rfl, rfl, rfl, rfl, p1, p2, heq1, heq2, heq3⟩
    · simp at h
  · intro hlen hg hv
    unfold reconstruct
    rw [if_pos hlen]
    split
    · rename_i heq1
      have htot := activate_hidden_total exp hu hg r.b r.w
        (fun i => items.getD i.val 0) (fun i => items.getD i.val 0) rng pos
      rw [heq1] at htot
      simp at htot
    · rename_i h1a h1s p1 heq1
      split
      · rename_i heq2
        have htot := activate_visible_total exp vu hv r.c r.w h1a h1s rng p1
        rw [heq2] at htot
        simp at htot
      · rename_i v2a v2s p2 heq2
        split
        · rename_i heq3
          have htot := activate_hidden_total exp hu hg r.b r.w v2a v2s rng p2
          rw [heq3] at htot
          simp at htot
        · rfl

/-- C7 witness: the length guard rejects an empty sample, and a 1×1
BINARY/BINARY machine reconstructs the sample `[1]`. -/
theorem reconstruct_spec_witness :
    reconstruct (fun _ => 1) unit_type.BINARY unit_type.BINARY
      (constState 1 1 0) [] (fun _ => 0) 0 = none ∧
    (reconstruct (fun _ => 1) unit_type.BINARY unit_type.BINARY
      (constState 1 1 0) [1] (fun _ => 0) 0).isSome :=
  ⟨(reconstruct_spec (fun _ => 1) unit_type.BINARY unit_type.BINARY
      (constState 1 1 0) [] (fun _ => 0) 0).1 (by decide),
   (reconstruct_spec (fun _ => 1) unit_type.BINARY unit_type.BINARY
      (constState 1 1 0) [1] (fun _ => 0) 0).2.2 rfl (by decide)
      (Or.inl rfl)⟩

end DLLRBM
